import Mathlib

set_option maxHeartbeats 1000000

/-!
Shallow embedding of `dupscan.c`: a duplicate-file scanner that keeps a
fixed-size table of buckets (keyed by file size mod 1049), each bucket a
size-ascending chain of previously seen entries, with lazy content hashing.

Modelling conventions:
- C pointers/chains become Lean lists; the `next` field of `struct entry`
  is the list structure itself.
- The external digest facility (`popen`-based sha256 in `generate_hash`) is an
  oracle `Env.digest : String -> Option String`; `none` models any failure of
  that facility (its internal malloc, popen, or fgets failing), all of which
  `dupscan.c` treats as fatal.
- `malloc` failure for entry storage and for the path string built in
  `process` is driven by the oracle `Env.mallocOk`, consulted with a running
  malloc counter; the C program exits with code 1 on any such failure.
- `exit(1)` paths are `Except.error (Fail.err msg)` with the diagnostic text
  the C code prints. That diagnostic names the offending path for some
  failures (unsupported file type, failed `opendir`, a failed digest read)
  and not for others: `perror("process lstat")`, `perror("process malloc")`
  and `perror("entry_alloc")` print no path. The potential NULL dereference
  at the tail-insertion in `find_entry` (`last_ep->next` with `last_ep`
  possibly NULL) is the distinct outcome `Fail.nullDeref`.
- Instrumentation: the list of paths for which a digest computation was
  attempted is returned alongside results (`hashed` events), so laziness and
  at-most-once claims can be stated.
-/

/-- HASH_SIZE from dupscan.c: number of buckets in the entry table. -/
def HASH_SIZE : Nat := 1049

/-- Mirrors `struct entry` (minus `next`, which becomes list structure):
path, size, optional cached hash, and the stat metadata. -/
structure Entry where
  path : String
  size : Nat
  hash : Option String
  nlinks : Nat
  device : Nat
  inode : Nat
deriving DecidableEq

/-- Fatal outcomes: `err` models `exit(1)` after a diagnostic (the message
carries the offending path), `nullDeref` models the undefined behaviour of
dereferencing a NULL `last_ep` in `find_entry`. -/
inductive Fail where
  | err (msg : String)
  | nullDeref
deriving DecidableEq

/-- Environment oracles: the external digest provider and malloc success. -/
structure Env where
  digest : String → Option String
  mallocOk : Nat → Bool

/-- Mirrors `generate_hash`: run the digest facility on the entry's path and
cache the result in the `hash` field. A failed digest read (`popen` or
`fgets` failing) is fatal, and those C reports name the file — `perror(cmd)`
with the path inside the command, and `fprintf("File: %s", path)` — which
the modelled diagnostic reflects. The facility's internal `malloc` failure
(whose `perror` names no path) is also subsumed by the oracle returning
`none`. -/
def generate_hash (env : Env) (e : Entry) : Except Fail Entry :=
  match env.digest e.path with
  | none => .error (.err ("hash failure: " ++ e.path))
  | some d => .ok { e with hash := some d }

/-- The guarded call sites `if (ep->hash == NULL) generate_hash(ep);` in
`find_entry`. Also records the digest-attempt event. -/
def hashIfNeeded (env : Env) (e : Entry) : Except Fail (Entry × List String) :=
  if e.hash = none then
    match generate_hash env e with
    | .error f => .error f
    | .ok e' => .ok (e', [e.path])
  else
    .ok (e, [])

/-- Result of the scan loop inside `find_entry`: either a hash match was
found (`found chain orig evs` gives the updated bucket chain, the original
entry returned, and the digest-attempt events), or the loop ran to its exit
condition (`notFound visitedRev cand rest evs` gives the visited nodes in
reverse order — `visitedRev.head?` is C's `last_ep` — the possibly-hashed
candidate, the unvisited suffix, and the events). -/
inductive ScanRes where
  | found (chain : List Entry) (orig : Entry) (evs : List String)
  | notFound (visitedRev : List Entry) (cand : Entry) (rest : List Entry) (evs : List String)
deriving DecidableEq

/-- Prepend digest-attempt events to a scan result. -/
def ScanRes.addEvs (e : List String) : ScanRes → ScanRes
  | .found c o evs => .found c o (e ++ evs)
  | .notFound v c r evs => .notFound v c r (e ++ evs)

/-- The `for (last_ep = NULL, ep = entry_list[hash]; ep != NULL &&
ep->size <= orig_ep->size; ep = ep->next)` loop of `find_entry`, as a
recursion over the (remaining) bucket chain. On a size match the candidate
and then the node are lazily hashed; equal hashes return the node as the
original. Visited nodes (with any in-place hash updates) accumulate in
`visitedRev`. -/
def scanLoop (env : Env) : Entry → List Entry → List Entry → Except Fail ScanRes
  | cand, visitedRev, [] => .ok (.notFound visitedRev cand [] [])
  | cand, visitedRev, ep :: rest =>
    if ep.size ≤ cand.size then
      if ep.size = cand.size then
        match hashIfNeeded env cand with
        | .error f => .error f
        | .ok (cand', ev₁) =>
          match hashIfNeeded env ep with
          | .error f => .error f
          | .ok (ep', ev₂) =>
            if ep'.hash = cand'.hash then
              .ok (.found (visitedRev.reverse ++ ep' :: rest) ep' (ev₁ ++ ev₂))
            else
              match scanLoop env cand' (ep' :: visitedRev) rest with
              | .error f => .error f
              | .ok r => .ok (r.addEvs (ev₁ ++ ev₂))
      else
        scanLoop env cand (ep :: visitedRev) rest
    else
      .ok (.notFound visitedRev cand (ep :: rest) [])

/-- The head-insertion guard of `find_entry`:
`entry_list[hash] == NULL || entry_list[hash]->size > orig_ep->size`. -/
def headInsertGuard (chain : List Entry) (cand : Entry) : Bool :=
  match chain with
  | [] => true
  | h :: _ => cand.size < h.size

/-- Mirrors `find_entry`, acting on the bucket chain selected by the caller.
Returns the updated chain, the original entry when a duplicate was detected
(`some orig` means the candidate was NOT inserted), and the digest-attempt
events. The tail insertion `last_ep->next = orig_ep` is only well-defined
when `last_ep` is non-NULL; the NULL case is `Fail.nullDeref`. -/
def find_entry (env : Env) (chain : List Entry) (cand : Entry) :
    Except Fail (List Entry × Option Entry × List String) :=
  if headInsertGuard chain cand then
    .ok (cand :: chain, none, [])
  else
    match scanLoop env cand [] chain with
    | .error f => .error f
    | .ok (.found chain' orig evs) => .ok (chain', some orig, evs)
    | .ok (.notFound visitedRev cand' rest evs) =>
      match visitedRev with
      | [] => .error .nullDeref
      | _ :: _ => .ok (visitedRev.reverse ++ cand' :: rest, none, evs)

/-- The duplicate report line printed by `regular_file`:
`printf(">>> DUP file: %s. "); printf("Original: %s.\n");`. -/
def dupLine (candPath origPath : String) : String :=
  ">>> DUP file: " ++ candPath ++ ". Original: " ++ origPath ++ "."

/-- Global scanner state: the bucket table `entry_list`, the duplicate report
lines printed so far, the digest-attempt events so far, the number of
(modelled) malloc calls, and the length of the allocator freelist. -/
structure ScanState where
  table : Nat → List Entry
  output : List String
  hashed : List String
  mallocs : Nat
  freeSlots : Nat

/-- Point update of the bucket table. -/
def updateTable (t : Nat → List Entry) (i : Nat) (c : List Entry) : Nat → List Entry :=
  fun j => if j = i then c else t j

/-- Mirrors `regular_file`: look the candidate up in its bucket
(`size % HASH_SIZE`); on a duplicate, print the report line and release the
candidate back to the freelist (`entry_free`); otherwise ownership of the
candidate has passed to the index. -/
def regular_file (env : Env) (st : ScanState) (e : Entry) : Except Fail ScanState :=
  match find_entry env (st.table (e.size % HASH_SIZE)) e with
  | .error f => .error f
  | .ok (chain', dup?, evs) =>
    let st' : ScanState :=
      { st with table := updateTable st.table (e.size % HASH_SIZE) chain',
                hashed := st.hashed ++ evs }
    match dup? with
    | some orig =>
      .ok { st' with output := st'.output ++ [dupLine e.path orig.path],
                     freeSlots := st'.freeSlots + 1 }
    | none => .ok st'

/-- A sequence of candidate submissions to `regular_file`, as performed by
the traversal for successive non-empty regular files. -/
def scanEntries (env : Env) : List Entry → ScanState → Except Fail ScanState
  | [], st => .ok st
  | e :: es, st =>
    match regular_file env st e with
    | .error f => .error f
    | .ok st' => scanEntries env es st'

/-- Initial state: all buckets empty (the `for` loop in `main`), nothing
printed, no digest attempts, no mallocs, empty freelist. -/
def initState : ScanState :=
  { table := fun _ => [], output := [], hashed := [], mallocs := 0, freeSlots := 0 }

/- Filesystem trees fed to the traversal. Besides regular files (with their
stat metadata), directories, symlinks and special (block/character) files,
two constructors model environment failures: `badstat` is a node whose
`lstat` fails and `baddir` a directory whose `opendir` fails. -/
mutual
inductive FsTree where
  | file (name : String) (size nlinks device inode : Nat)
  | dir (name : String) (entries : FsForest)
  | symlink (name : String)
  | special (name : String)
  | badstat (name : String)
  | baddir (name : String)
inductive FsForest where
  | nil
  | cons (t : FsTree) (ts : FsForest)
end

/-- Accounting for `entry_alloc` as called from `process`: reuse a freelist
slot if available, otherwise malloc new storage (which may fail fatally). -/
def entry_alloc_acct (env : Env) (st : ScanState) : Except Fail ScanState :=
  if 0 < st.freeSlots then
    .ok { st with freeSlots := st.freeSlots - 1 }
  else if env.mallocOk st.mallocs then
    .ok { st with mallocs := st.mallocs + 1 }
  else
    .error (.err "entry_alloc")

/- Mirrors `process` and `scan_dups`. `process` first mallocs the
fully-qualified path `cp` (fatal on failure), then dispatches on the file
type from `lstat`: regular files of positive size are looked up via
`regular_file` (after `entry_alloc`), zero-length regular files are ignored,
directories recurse, symlinks are ignored, and any other type — or a failed
`lstat`/`opendir` — is fatal. The diagnostics mirror the C's: the
unsupported-type report and the `opendir` failure (`perror(path)`) name the
offending path, while `perror("process lstat")` and `perror("process
malloc")` do not. `scan_dups` iterates `process` over a directory's entries
(the traversal collaborator already omits `.`/`..`). -/
mutual
def process (env : Env) (path : String) (t : FsTree) (st : ScanState) : Except Fail ScanState :=
  if env.mallocOk st.mallocs then
    let st₁ : ScanState := { st with mallocs := st.mallocs + 1 }
    match t with
    | .file nm sz nl dv ino =>
      if 0 < sz then
        match entry_alloc_acct env st₁ with
        | .error f => .error f
        | .ok st₂ =>
          regular_file env st₂
            { path := path ++ "/" ++ nm, size := sz, hash := none,
              nlinks := nl, device := dv, inode := ino }
      else
        .ok st₁
    | .dir nm entries => scan_dups env (path ++ "/" ++ nm) entries st₁
    | .symlink _ => .ok st₁
    | .special nm =>
      .error (.err ("Can't handle file type for " ++ (path ++ "/" ++ nm) ++ "."))
    | .badstat _ => .error (.err "process lstat")
    | .baddir nm => .error (.err (path ++ "/" ++ nm))
  else
    .error (.err "process malloc")

def scan_dups (env : Env) (path : String) (ts : FsForest) (st : ScanState) :
    Except Fail ScanState :=
  match ts with
  | .nil => .ok st
  | .cons t rest =>
    match process env path t st with
    | .error f => .error f
    | .ok st' => scan_dups env path rest st'
end

/- Full paths of the regular files of positive size in a tree, rooted at
the given directory path — exactly the files the scanner considers. -/
mutual
def FsTree.regPaths (pfx : String) : FsTree → List String
  | .file nm sz _ _ _ => if 0 < sz then [pfx ++ "/" ++ nm] else []
  | .dir nm entries => FsForest.regPaths (pfx ++ "/" ++ nm) entries
  | .symlink _ => []
  | .special _ => []
  | .badstat _ => []
  | .baddir _ => []

def FsForest.regPaths (pfx : String) : FsForest → List String
  | .nil => []
  | .cons t ts => FsTree.regPaths pfx t ++ FsForest.regPaths pfx ts
end

/-- Option-cluster parsing for `getopt(argc, argv, "nv")`: characters after
a leading dash set `no_effect` (`n`) or `verbose` (`v`); any other character
is an unknown flag (usage error). -/
def parse_flag_chars : List Char → Bool × Bool → Option (Bool × Bool)
  | [], acc => some acc
  | c :: cs, (n, v) =>
    if c = 'n' then parse_flag_chars cs (true, v)
    else if c = 'v' then parse_flag_chars cs (n, true)
    else none

/-- POSIX `getopt` over argv (model of the CLI boundary): consume leading
dash-arguments as flag clusters, stopping at the first non-flag argument;
an unknown flag character yields `none` (usage). -/
def getopt_nv : List String → Bool × Bool → Option ((Bool × Bool) × List String)
  | [], acc => some (acc, [])
  | a :: rest, acc =>
    match a.toList with
    | '-' :: c :: cs =>
      match parse_flag_chars (c :: cs) acc with
      | none => none
      | some acc' => getopt_nv rest acc'
    | _ => some (acc, a :: rest)

/-- Mirrors `main`: parse flags (usage errors exit 2, as does a positional
argument count other than 1), open the root directory (`none` models a
failed `opendir`, exit 1), scan, and exit 0 on success or 1 on any runtime
error. The result pairs the exit code with the duplicate report lines
(dropped on the failing paths, where the C process dies mid-scan); the
impossible NULL dereference maps to `none`. -/
def dupscan_main (env : Env) (root : Option FsForest) (args : List String) :
    Option (Nat × List String) :=
  match getopt_nv args (false, false) with
  | none => some (2, [])
  | some (_, pos) =>
    match pos with
    | [dir] =>
      match root with
      | none => some (1, [])
      | some f =>
        match scan_dups env dir f initState with
        | .ok st => some (0, st.output)
        | .error (.err _) => some (1, [])
        | .error .nullDeref => none
    | _ => some (2, [])

/-- Detect the undefined-behaviour outcome. -/
def isNullDeref {α : Type} : Except Fail α → Bool
  | .error .nullDeref => true
  | _ => false

/-! Entry allocator (`entry_alloc` / `entry_free`) modelled over an explicit
heap: `store` is the sequence of malloc'd entry slots in allocation order;
`freelist` is the chain of released slot ids (head = most recently freed,
matching the C freelist's `next` links). Slot contents persist across
release and reuse — `entry_alloc` only sets `next`, `path`, `size`, `hash`,
leaving `nlinks`/`device`/`inode` as residual memory, and `entry_free` only
frees the owned strings. -/

/-- Raw slot memory for `struct entry` (the `next` pointer is represented by
freelist membership). `path`/`hash` are `none` when the C pointers are NULL. -/
structure Slot where
  path : Option String
  size : Nat
  hash : Option String
  nlinks : Nat
  device : Nat
  inode : Nat
deriving DecidableEq

/-- The allocator heap. -/
structure Heap where
  store : List Slot
  freelist : List Nat
deriving DecidableEq

/-- Slot contents written by `entry_alloc`: take ownership of the path and
clear size and hash. The metadata fields are whatever the slot held. -/
def allocInit (name : String) (s : Slot) : Slot :=
  { s with path := some name, size := 0, hash := none }

/-- Read a slot (out-of-range reads return an all-zero slot; they do not
occur for valid ids). -/
def getSlot (hp : Heap) (i : Nat) : Slot :=
  (hp.store.get? i).getD { path := none, size := 0, hash := none, nlinks := 0, device := 0, inode := 0 }

/-- Mirrors `entry_alloc`: pop a slot off the freelist if one is available,
otherwise malloc a fresh slot (whose prior memory contents are `junk`);
then set path/size/hash. Returns the slot id and the new heap. -/
def entry_alloc (name : String) (junk : Slot) (hp : Heap) : Nat × Heap :=
  match hp.freelist with
  | i :: rest =>
    (i, { store := hp.store.set i (allocInit name (getSlot hp i)), freelist := rest })
  | [] =>
    (hp.store.length, { store := hp.store ++ [allocInit name junk], freelist := [] })

/-- Mirrors `entry_free`: free the owned strings (path and hash become NULL)
and push the slot onto the freelist. -/
def entry_free (i : Nat) (hp : Heap) : Heap :=
  { store := hp.store.set i { getSlot hp i with path := none, hash := none },
    freelist := i :: hp.freelist }

/-- Allocate a sequence of entries (`junk` is the memory contents of any
freshly malloc'd slot). -/
def allocMany (junk : Slot) : List String → Heap → Heap
  | [], hp => hp
  | n :: ns, hp => allocMany junk ns (entry_alloc n junk hp).2

/-- Release a sequence of entries. -/
def freeMany : List Nat → Heap → Heap
  | [], hp => hp
  | i :: is, hp => freeMany is (entry_free i hp)

/-! Relations used to state how `find_entry` transforms a bucket chain. -/

/-- Two entries agree on everything except possibly the cached hash. -/
def sameShape (a b : Entry) : Prop :=
  b.path = a.path ∧ b.size = a.size ∧ b.nlinks = a.nlinks ∧ b.device = a.device ∧ b.inode = a.inode

/-- How a chain node may evolve during one `find_entry` call with candidate
`cand`: unchanged, or — only for a node of the candidate's size whose hash
was absent — the hash filled in with the digest of its path. -/
def visitRel (env : Env) (cand : Entry) (a b : Entry) : Prop :=
  sameShape a b ∧
    (b.hash = a.hash ∨
      (a.size = cand.size ∧ a.hash = none ∧ b.hash = env.digest a.path ∧ b.hash.isSome))

/-- How the candidate itself may evolve: unchanged, or its absent hash
filled in with the digest of its path. -/
def candRel (env : Env) (c c' : Entry) : Prop :=
  sameShape c c' ∧
    (c'.hash = c.hash ∨ (c.hash = none ∧ c'.hash = env.digest c.path ∧ c'.hash.isSome))

/-- Upper bound (as an ordered sublist) for the digest-attempt events of one
scan: the candidate's path if its hash is absent, then the paths of the
chain nodes whose hash is absent and whose size matches the candidate's. -/
def hashCands (cp : String) (ch : Option String) (cs : Nat) (pre : List Entry) : List String :=
  (if ch = none then [cp] else []) ++
    (pre.filter (fun a => decide (a.hash = none ∧ a.size = cs))).map Entry.path

/-- An environment with a total digest function and reliable malloc. -/
def totalEnv (dg : String → String) : Env :=
  { digest := fun p => some (dg p), mallocOk := fun _ => true }

/-! Basic lemmas about the relations. -/

lemma sameShape_refl (a : Entry) : sameShape a a := ⟨rfl, rfl, rfl, rfl, rfl⟩

lemma sameShape_trans {a b c : Entry} (h₁ : sameShape a b) (h₂ : sameShape b c) :
    sameShape a c := by
  obtain ⟨p₁, s₁, n₁, d₁, i₁⟩ := h₁
  obtain ⟨p₂, s₂, n₂, d₂, i₂⟩ := h₂
  exact ⟨p₂.trans p₁, s₂.trans s₁, n₂.trans n₁, d₂.trans d₁, i₂.trans i₁⟩

lemma visitRel_refl (env : Env) (cand a : Entry) : visitRel env cand a a :=
  ⟨sameShape_refl a, Or.inl rfl⟩

lemma visitRel_congr {env : Env} {c₁ c₂ a b : Entry} (hsz : c₁.size = c₂.size)
    (h : visitRel env c₁ a b) : visitRel env c₂ a b := by
  obtain ⟨hs, hh | ⟨h1, h2, h3, h4⟩⟩ := h
  · exact ⟨hs, Or.inl hh⟩
  · exact ⟨hs, Or.inr ⟨hsz ▸ h1, h2, h3, h4⟩⟩

lemma candRel_trans {env : Env} {a b c : Entry} (h₁ : candRel env a b)
    (h₂ : candRel env b c) : candRel env a c := by
  obtain ⟨hs₁, hh₁⟩ := h₁
  obtain ⟨hs₂, hh₂⟩ := h₂
  refine ⟨sameShape_trans hs₁ hs₂, ?_⟩
  rcases hh₂ with h2 | ⟨hb, hc, hcs⟩
  · rcases hh₁ with h1 | ⟨ha, hb', hbs⟩
    · exact Or.inl (h2.trans h1)
    · exact Or.inr ⟨ha, h2.trans hb', h2 ▸ hbs⟩
  · rcases hh₁ with h1 | ⟨ha, hb', hbs⟩
    · exact Or.inr ⟨h1 ▸ hb, hs₁.1 ▸ hc, hcs⟩
    · rw [hb] at hbs; simp at hbs
  
lemma forall₂_mem_left {α β : Type} {r : α → β → Prop} {l₁ : List α} {l₂ : List β}
    (h : List.Forall₂ r l₁ l₂) {a : α} (ha : a ∈ l₁) : ∃ b ∈ l₂, r a b := by
  induction h with
  | nil => cases ha
  | cons hr _ ih =>
    rcases List.mem_cons.mp ha with rfl | ha'
    · exact ⟨_, List.mem_cons_self _ _, hr⟩
    · obtain ⟨b, hb, hrb⟩ := ih ha'
      exact ⟨b, List.mem_cons_of_mem _ hb, hrb⟩

/-- What a successful `hashIfNeeded` yields: shape preserved, hash present
afterwards, and either nothing happened (hash was already cached, no event)
or the absent hash was filled with the digest and one event was recorded. -/
lemma hashIfNeeded_ok {env : Env} {e e' : Entry} {ev : List String}
    (h : hashIfNeeded env e = .ok (e', ev)) :
    sameShape e e' ∧ e'.hash.isSome ∧
      ((e' = e ∧ ev = [] ∧ e.hash ≠ none) ∨
        (e.hash = none ∧ e'.hash = env.digest e.path ∧ ev = [e.path])) := by
  unfold hashIfNeeded at h
  by_cases hn : e.hash = none
  · simp only [hn, if_pos rfl] at h
    unfold generate_hash at h
    cases hd : env.digest e.path with
    | none => rw [hd] at h; cases h
    | some d =>
      rw [hd] at h
      cases h
      exact ⟨⟨rfl, rfl, rfl, rfl, rfl⟩, by simp, Or.inr ⟨hn, by simp [hd], rfl⟩⟩
  · simp only [hn, if_neg] at h
    cases h
    exact ⟨sameShape_refl e, by cases hh : e.hash with
      | none => exact absurd hh hn
      | some d => simp [hh], Or.inl ⟨rfl, rfl, hn⟩⟩

lemma hashIfNeeded_candRel {env : Env} {e e' : Entry} {ev : List String}
    (h : hashIfNeeded env e = .ok (e', ev)) : candRel env e e' := by
  obtain ⟨hs, hsome, hc | ⟨h1, h2, _⟩⟩ := hashIfNeeded_ok h
  · exact ⟨hs, Or.inl (by rw [hc.1])⟩
  · exact ⟨hs, Or.inr ⟨h1, h2, hsome⟩⟩

/-- Characterization of a scan that ran to its exit condition: the chain
splits into a visited prefix `pre` (node-wise transformed by `visitRel`, all
of size at most the candidate's) and the unvisited `rest` (whose head, if
any, is strictly larger than the candidate); the candidate evolves by
`candRel`; the digest-attempt events are bounded by `hashCands`. -/
lemma scanLoop_notFound {env : Env} :
    ∀ (l : List Entry) (cand : Entry) (vR vR' : List Entry) (cand' : Entry)
      (rest : List Entry) (evs : List String),
      scanLoop env cand vR l = .ok (.notFound vR' cand' rest evs) →
      ∃ pre w,
        l = pre ++ rest ∧
        vR' = w.reverse ++ vR ∧
        List.Forall₂ (visitRel env cand) pre w ∧
        (∀ a ∈ pre, a.size ≤ cand.size) ∧
        (∀ r ∈ rest.head?, cand.size < r.size) ∧
        candRel env cand cand' ∧
        evs.Sublist (hashCands cand.path cand.hash cand.size pre) := by
  intro l
  induction l with
  | nil =>
    intro cand vR vR' cand' rest evs h
    simp only [scanLoop, Except.ok.injEq, ScanRes.notFound.injEq] at h
    obtain ⟨rfl, rfl, rfl, rfl⟩ := h
    exact ⟨[], [], by simp, by simp, .nil, by simp, by simp,
      ⟨sameShape_refl _, Or.inl rfl⟩, by simp⟩
  | cons ep rest₀ ih =>
    intro cand vR vR' cand' rest evs h
    simp only [scanLoop] at h
    by_cases h₁ : ep.size ≤ cand.size
    · rw [if_pos h₁] at h
      by_cases h₂ : ep.size = cand.size
      · rw [if_pos h₂] at h
        split at h
        · cases h
        · rename_i cand₁ ev₁ hc
          split at h
          · cases h
          · rename_i ep₁ ev₂ he
            by_cases h₃ : ep₁.hash = cand₁.hash
            · rw [if_pos h₃] at h
              simp at h
            · rw [if_neg h₃] at h
              split at h
              · cases h
              · rename_i r hr
                cases r with
                | found c o e₀ => simp [ScanRes.addEvs] at h
                | notFound v c r' e₀ =>
                  simp only [ScanRes.addEvs, Except.ok.injEq, ScanRes.notFound.injEq] at h
                  obtain ⟨rfl, rfl, rfl, rfl⟩ := h
                  obtain ⟨pre₀, w₀, hl, hvr, hf₂, hsz, hhd, hcr, hsub⟩ :=
                    ih cand₁ (ep₁ :: vR) _ _ _ _ hr
                  obtain ⟨hsc, hcsome, hdc⟩ := hashIfNeeded_ok hc
                  obtain ⟨hse, hesome, hde⟩ := hashIfNeeded_ok he
                  have hc_sz : cand₁.size = cand.size := hsc.2.1
                  refine ⟨ep :: pre₀, ep₁ :: w₀, ?_, ?_, ?_, ?_, ?_, ?_, ?_⟩
                  · simp [hl]
                  · simp [hvr, List.append_assoc]
                  · refine List.Forall₂.cons ?_
                      (hf₂.imp (fun _ _ hab => visitRel_congr hc_sz hab))
                    rcases hde with ⟨heq, _, _⟩ | ⟨hn, hheq, _⟩
                    · rw [heq]; exact visitRel_refl env cand ep
                    · exact ⟨hse, Or.inr ⟨h₂, hn, hheq, hesome⟩⟩
                  · intro a ha
                    rcases List.mem_cons.mp ha with rfl | ha'
                    · exact h₁
                    · exact (hsz a ha').trans (le_of_eq hc_sz)
                  · intro r hr'
                    have := hhd r hr'
                    rwa [hc_sz] at this
                  · exact candRel_trans (hashIfNeeded_candRel hc) hcr
                  · have hnn : ¬ cand₁.hash = none := by
                      intro hx; rw [hx] at hcsome; simp at hcsome
                    have he₀ : e₀.Sublist ((pre₀.filter
                        (fun a => decide (a.hash = none ∧ a.size = cand.size))).map
                          Entry.path) := by
                      simpa [hashCands, hnn, hc_sz] using hsub
                    have hstep : (ev₂ ++ e₀).Sublist
                        (((ep :: pre₀).filter
                          (fun a => decide (a.hash = none ∧ a.size = cand.size))).map
                            Entry.path) := by
                      rcases hde with ⟨_, rfl, hne⟩ | ⟨hn, _, rfl⟩
                      · simpa [List.filter_cons, hne, h₂] using he₀
                      · simpa [List.filter_cons, hn, h₂] using he₀.cons₂ ep.path
                    rcases hdc with ⟨_, rfl, hnc⟩ | ⟨hn, _, rfl⟩
                    · simpa [hashCands, hnc] using hstep
                    · simpa [hashCands, hn] using hstep.cons₂ cand.path
      · rw [if_neg h₂] at h
        obtain ⟨pre₀, w₀, hl, hvr, hf₂, hsz, hhd, hcr, hsub⟩ :=
          ih cand (ep :: vR) _ _ _ _ h
        refine ⟨ep :: pre₀, ep :: w₀, ?_, ?_, ?_, ?_, ?_, ?_, ?_⟩
        · simp [hl]
        · simp [hvr, List.append_assoc]
        · exact List.Forall₂.cons (visitRel_refl env cand ep) hf₂
        · intro a ha
          rcases List.mem_cons.mp ha with rfl | ha'
          · exact h₁
          · exact hsz a ha'
        · exact hhd
        · exact hcr
        · simpa [hashCands, List.filter_cons, h₂] using hsub
    · rw [if_neg h₁] at h
      simp only [Except.ok.injEq, ScanRes.notFound.injEq] at h
      obtain ⟨rfl, rfl, rfl, rfl⟩ := h
      refine ⟨[], [], by simp, by simp, .nil, by simp, ?_,
        ⟨sameShape_refl _, Or.inl rfl⟩, by simp⟩
      intro r hr'
      simp only [List.head?_cons, Option.mem_def, Option.some.injEq] at hr'
      subst hr'
      exact Nat.not_le.mp h₁

lemma scanLoop_found {env : Env} :
    ∀ (l : List Entry) (cand : Entry) (vR : List Entry) (chain' : List Entry)
      (orig : Entry) (evs : List String),
      scanLoop env cand vR l = .ok (.found chain' orig evs) →
      ∃ pre w ep ep' rest,
        l = pre ++ ep :: rest ∧
        chain' = vR.reverse ++ (w ++ ep' :: rest) ∧
        List.Forall₂ (visitRel env cand) pre w ∧
        visitRel env cand ep ep' ∧
        orig = ep' ∧
        ep.size = cand.size ∧
        (∀ a ∈ pre, a.size ≤ cand.size) ∧
        evs.Sublist (hashCands cand.path cand.hash cand.size (pre ++ [ep])) := by
  intro l
  induction l with
  | nil =>
    intro cand vR chain' orig evs h
    simp [scanLoop] at h
  | cons ep rest₀ ih =>
    intro cand vR chain' orig evs h
    simp only [scanLoop] at h
    by_cases h₁ : ep.size ≤ cand.size
    · rw [if_pos h₁] at h
      by_cases h₂ : ep.size = cand.size
      · rw [if_pos h₂] at h
        split at h
        · cases h
        · rename_i cand₁ ev₁ hc
          split at h
          · cases h
          · rename_i ep₁ ev₂ he
            obtain ⟨hsc, hcsome, hdc⟩ := hashIfNeeded_ok hc
            obtain ⟨hse, hesome, hde⟩ := hashIfNeeded_ok he
            have hc_sz : cand₁.size = cand.size := hsc.2.1
            by_cases h₃ : ep₁.hash = cand₁.hash
            · rw [if_pos h₃] at h
              simp only [Except.ok.injEq, ScanRes.found.injEq] at h
              obtain ⟨rfl, rfl, rfl⟩ := h
              refine ⟨[], [], ep, ep₁, rest₀, by simp, by simp, .nil, ?_, rfl, h₂,
                by simp, ?_⟩
              · rcases hde with ⟨heq, _, _⟩ | ⟨hn, hheq, _⟩
                · rw [heq]; exact visitRel_refl env cand ep
                · exact ⟨hse, Or.inr ⟨h₂, hn, hheq, hesome⟩⟩
              · have hev₁ : ev₁.Sublist (if cand.hash = none then [cand.path] else []) := by
                  rcases hdc with ⟨_, rfl, hnc⟩ | ⟨hn, _, rfl⟩
                  · simp
                  · simp [hn]
                have hev₂ : ev₂.Sublist
                    ((([ep]).filter
                      (fun a => decide (a.hash = none ∧ a.size = cand.size))).map
                        Entry.path) := by
                  rcases hde with ⟨_, rfl, hne⟩ | ⟨hn', _, rfl⟩
                  · simp
                  · simp [hn', h₂]
                simpa [hashCands] using hev₁.append hev₂
            · rw [if_neg h₃] at h
              split at h
              · cases h
              · rename_i r hr
                cases r with
                | notFound v c r' e₀ => simp [ScanRes.addEvs] at h
                | found c o e₀ =>
                  simp only [ScanRes.addEvs, Except.ok.injEq, ScanRes.found.injEq] at h
                  obtain ⟨rfl, rfl, rfl⟩ := h
                  obtain ⟨pre₀, w₀, ep₂, ep₂', rest₂, hl, hch, hf₂, hv₂, ho, hsz₂, hszs, hsub⟩ :=
                    ih cand₁ (ep₁ :: vR) _ _ _ hr
                  refine ⟨ep :: pre₀, ep₁ :: w₀, ep₂, ep₂', rest₂, ?_, ?_, ?_, ?_, ho, ?_,
                    ?_, ?_⟩
                  · simp [hl]
                  · simp [hch, List.append_assoc]
                  · refine List.Forall₂.cons ?_
                      (hf₂.imp (fun _ _ hab => visitRel_congr hc_sz hab))
                    rcases hde with ⟨heq, _, _⟩ | ⟨hn, hheq, _⟩
                    · rw [heq]; exact visitRel_refl env cand ep
                    · exact ⟨hse, Or.inr ⟨h₂, hn, hheq, hesome⟩⟩
                  · exact visitRel_congr hc_sz hv₂
                  · exact hsz₂.trans hc_sz
                  · intro a ha
                    rcases List.mem_cons.mp ha with rfl | ha'
                    · exact h₁
                    · exact (hszs a ha').trans (le_of_eq hc_sz)
                  · have hnn : ¬ cand₁.hash = none := by
                      intro hx; rw [hx] at hcsome; simp at hcsome
                    have he₀ : e₀.Sublist (((pre₀ ++ [ep₂]).filter
                        (fun a => decide (a.hash = none ∧ a.size = cand.size))).map
                          Entry.path) := by
                      simpa [hashCands, hnn, hc_sz] using hsub
                    have hstep : (ev₂ ++ e₀).Sublist
                        (((ep :: (pre₀ ++ [ep₂])).filter
                          (fun a => decide (a.hash = none ∧ a.size = cand.size))).map
                            Entry.path) := by
                      rcases hde with ⟨_, rfl, hne⟩ | ⟨hn, _, rfl⟩
                      · simpa [List.filter_cons, hne, h₂] using he₀
                      · simpa [List.filter_cons, hn, h₂] using he₀.cons₂ ep.path
                    have hfin : ((ev₁ ++ ev₂) ++ e₀).Sublist
                        (hashCands cand.path cand.hash cand.size (ep :: (pre₀ ++ [ep₂]))) := by
                      rcases hdc with ⟨_, rfl, hnc⟩ | ⟨hn, _, rfl⟩
                      · simpa [hashCands, hnc] using hstep
                      · simpa [hashCands, hn] using hstep.cons₂ cand.path
                    simpa using hfin
      · rw [if_neg h₂] at h
        obtain ⟨pre₀, w₀, ep₂, ep₂', rest₂, hl, hch, hf₂, hv₂, ho, hsz₂, hszs, hsub⟩ :=
          ih cand (ep :: vR) _ _ _ h
        refine ⟨ep :: pre₀, ep :: w₀, ep₂, ep₂', rest₂, ?_, ?_, ?_, hv₂, ho, hsz₂, ?_, ?_⟩
        · simp [hl]
        · simp [hch, List.append_assoc]
        · exact List.Forall₂.cons (visitRel_refl env cand ep) hf₂
        · intro a ha
          rcases List.mem_cons.mp ha with rfl | ha'
          · exact h₁
          · exact hszs a ha'
        · simpa [hashCands, List.filter_cons, h₂] using hsub
    · rw [if_neg h₁] at h
      simp at h

lemma headInsertGuard_false {chain : List Entry} {cand : Entry}
    (h : headInsertGuard chain cand = false) :
    ∃ hd tl, chain = hd :: tl ∧ hd.size ≤ cand.size := by
  cases chain with
  | nil => simp [headInsertGuard] at h
  | cons hd tl =>
    simp only [headInsertGuard, decide_eq_false_iff_not, Nat.not_lt] at h
    exact ⟨hd, tl, rfl, h⟩

lemma headInsertGuard_true {chain : List Entry} {cand : Entry}
    (h : headInsertGuard chain cand = true) :
    chain = [] ∨ ∃ hd tl, chain = hd :: tl ∧ cand.size < hd.size := by
  cases chain with
  | nil => exact Or.inl rfl
  | cons hd tl =>
    simp only [headInsertGuard, decide_eq_true_eq] at h
    exact Or.inr ⟨hd, tl, rfl, h⟩

lemma hashIfNeeded_error {env : Env} {e : Entry} {f : Fail}
    (h : hashIfNeeded env e = .error f) : f = .err ("hash failure: " ++ e.path) := by
  unfold hashIfNeeded generate_hash at h
  by_cases hn : e.hash = none
  · rw [if_pos hn] at h
    cases hd : env.digest e.path with
    | none => rw [hd] at h; cases h; rfl
    | some d => rw [hd] at h; cases h
  · rw [if_neg hn] at h; cases h

lemma scanLoop_error {env : Env} :
    ∀ (l : List Entry) (cand : Entry) (vR : List Entry) (f : Fail),
      scanLoop env cand vR l = .error f → ∃ m, f = .err m := by
  intro l
  induction l with
  | nil => intro cand vR f h; simp [scanLoop] at h
  | cons ep rest₀ ih =>
    intro cand vR f h
    simp only [scanLoop] at h
    by_cases h₁ : ep.size ≤ cand.size
    · rw [if_pos h₁] at h
      by_cases h₂ : ep.size = cand.size
      · rw [if_pos h₂] at h
        split at h
        · rename_i f₁ hc
          cases h
          exact ⟨_, hashIfNeeded_error hc⟩
        · rename_i cand₁ ev₁ hc
          split at h
          · rename_i f₁ he
            cases h
            exact ⟨_, hashIfNeeded_error he⟩
          · rename_i ep₁ ev₂ he
            by_cases h₃ : ep₁.hash = cand₁.hash
            · rw [if_pos h₃] at h; cases h
            · rw [if_neg h₃] at h
              split at h
              · rename_i f₁ hr
                cases h
                exact ih _ _ _ hr
              · cases h
      · rw [if_neg h₂] at h
        exact ih _ _ _ h
    · rw [if_neg h₁] at h; cases h

lemma scanLoop_no_collision {env : Env} :
    ∀ (l : List Entry) (cand : Entry) (vR : List Entry),
      (∀ ep ∈ l, ep.size ≠ cand.size) →
      ∃ pre rest, l = pre ++ rest ∧
        scanLoop env cand vR l = .ok (.notFound (pre.reverse ++ vR) cand rest []) ∧
        (∀ a ∈ pre, a.size ≤ cand.size) ∧
        (∀ r ∈ rest.head?, cand.size < r.size) := by
  intro l
  induction l with
  | nil =>
    intro cand vR _
    exact ⟨[], [], rfl, by simp [scanLoop], by simp, by simp⟩
  | cons ep rest₀ ih =>
    intro cand vR hu
    by_cases h₁ : ep.size ≤ cand.size
    · have h₂ : ep.size ≠ cand.size := hu ep (List.mem_cons_self _ _)
      obtain ⟨pre₀, rest, hsplit, hrun, hszs, hhd⟩ :=
        ih cand (ep :: vR) (fun a ha => hu a (List.mem_cons_of_mem _ ha))
      refine ⟨ep :: pre₀, rest, by simp [hsplit], ?_, ?_, hhd⟩
      · simp only [scanLoop, if_pos h₁, if_neg h₂]
        rw [hrun]
        simp
      · intro a ha
        rcases List.mem_cons.mp ha with rfl | ha'
        · exact h₁
        · exact hszs a ha'
    · refine ⟨[], ep :: rest₀, rfl, ?_, by simp, ?_⟩
      · simp [scanLoop, if_neg h₁]
      · intro r hr'
        simp only [List.head?_cons, Option.mem_def, Option.some.injEq] at hr'
        subst hr'
        exact Nat.not_le.mp h₁

lemma find_entry_head_insert {env : Env} {chain : List Entry} {cand : Entry}
    (h : headInsertGuard chain cand = true) :
    find_entry env chain cand = .ok (cand :: chain, none, []) := by
  simp [find_entry, h]

lemma find_entry_insert {env : Env} {chain : List Entry} {cand : Entry}
    {chain' : List Entry} {evs : List String}
    (hg : headInsertGuard chain cand = false)
    (h : find_entry env chain cand = .ok (chain', none, evs)) :
    ∃ pre w rest cand',
      chain = pre ++ rest ∧
      chain' = w ++ cand' :: rest ∧
      w ≠ [] ∧
      List.Forall₂ (visitRel env cand) pre w ∧
      (∀ a ∈ pre, a.size ≤ cand.size) ∧
      (∀ r ∈ rest.head?, cand.size < r.size) ∧
      candRel env cand cand' ∧
      evs.Sublist (hashCands cand.path cand.hash cand.size pre) := by
  rw [find_entry, hg] at h
  simp only [Bool.false_eq_true, if_false] at h
  split at h
  · cases h
  · simp at h
  · rename_i vR' cand₁ rest₁ evs₁ hs
    split at h
    · cases h
    · rename_i a as
      simp only [Except.ok.injEq, Prod.mk.injEq] at h
      obtain ⟨rfl, -, rfl⟩ := h
      obtain ⟨pre, w, hc, hv, hf, hsz, hhd, hcr, hsub⟩ :=
        scanLoop_notFound _ _ _ _ _ _ _ hs
      refine ⟨pre, w, rest₁, cand₁, hc, ?_, ?_, hf, hsz, hhd, hcr, hsub⟩
      · rw [hv]; simp
      · intro hwnil
        rw [hwnil] at hv
        simp at hv

lemma forall₂_map_eq {f : Entry → Nat} {r : Entry → Entry → Prop}
    (hf : ∀ a b, r a b → f b = f a) :
    ∀ {l₁ l₂ : List Entry}, List.Forall₂ r l₁ l₂ → l₂.map f = l₁.map f := by
  intro l₁ l₂ h
  induction h with
  | nil => rfl
  | cons hr _ ih => simp [ih, hf _ _ hr]

lemma visitRel_sizes {env : Env} {cand : Entry} {l₁ l₂ : List Entry}
    (h : List.Forall₂ (visitRel env cand) l₁ l₂) :
    l₂.map Entry.size = l₁.map Entry.size :=
  forall₂_map_eq (fun _ _ hab => hab.1.2.1) h

lemma find_entry_dup {env : Env} {chain : List Entry} {cand : Entry}
    {chain' : List Entry} {orig : Entry} {evs : List String}
    (h : find_entry env chain cand = .ok (chain', some orig, evs)) :
    headInsertGuard chain cand = false ∧
    List.Forall₂ (visitRel env cand) chain chain' ∧
    orig ∈ chain' ∧ orig.size = cand.size ∧
    evs.Sublist (hashCands cand.path cand.hash cand.size chain) := by
  cases hg : headInsertGuard chain cand with
  | true => rw [find_entry_head_insert hg] at h; simp at h
  | false =>
    refine ⟨rfl, ?_⟩
    rw [find_entry, hg] at h
    simp only [Bool.false_eq_true, if_false] at h
    split at h
    · cases h
    · rename_i chain₁ orig₁ evs₁ hs
      simp only [Except.ok.injEq, Prod.mk.injEq, Option.some.injEq] at h
      obtain ⟨rfl, rfl, rfl⟩ := h
      obtain ⟨pre, w, ep, ep', rest, hsplit, hch, hf, hv, ho, hsz, hszs, hsub⟩ :=
        scanLoop_found _ _ _ _ _ _ hs
      subst ho
      subst hsplit
      rw [hch]
      simp only [List.reverse_nil, List.nil_append]
      refine ⟨?_, ?_, ?_, ?_⟩
      · exact List.rel_append hf
          (List.Forall₂.cons hv ((List.forall₂_same).mpr
            (fun x _ => visitRel_refl env cand x)))
      · exact List.mem_append_right _ (List.mem_cons_self _ _)
      · rw [hv.1.2.1, hsz]
      · refine hsub.trans ?_
        unfold hashCands
        refine List.Sublist.append (List.Sublist.refl _) ?_
        refine List.Sublist.map _ (List.Sublist.filter _ ?_)
        refine List.Sublist.append (List.Sublist.refl _) ?_
        exact List.cons_sublist_cons.mpr (List.nil_sublist _)
    · split at h
      · cases h
      · simp at h

lemma find_entry_not_null {env : Env} (chain : List Entry) (cand : Entry) :
    isNullDeref (find_entry env chain cand) = false := by
  cases hg : headInsertGuard chain cand with
  | true => rw [find_entry_head_insert hg]; rfl
  | false =>
    obtain ⟨hd, tl, rfl, hle⟩ := headInsertGuard_false hg
    rw [find_entry, hg]
    simp only [Bool.false_eq_true, if_false]
    cases hs : scanLoop env cand [] (hd :: tl) with
    | error f =>
      obtain ⟨m, rfl⟩ := scanLoop_error _ _ _ _ hs
      rfl
    | ok r =>
      cases r with
      | found c o e => rfl
      | notFound vR' cand' rest evs =>
        obtain ⟨pre, w, hc, hv, hf, hsz, hhd, hcr, hsub⟩ :=
          scanLoop_notFound _ _ _ _ _ _ _ hs
        cases hw : vR' with
        | nil =>
          exfalso
          rw [hw] at hv
          have hwnil : w = [] := by
            cases w with
            | nil => rfl
            | cons a as => simp at hv
          rw [hwnil] at hf
          have hpre : pre = [] := List.forall₂_nil_right_iff.mp hf
          rw [hpre] at hc
          simp only [List.nil_append] at hc
          rw [← hc] at hhd
          exact absurd (hhd hd (by simp)) (Nat.not_lt.mpr hle)
        | cons a as => rfl

lemma find_entry_no_collision {env : Env} {chain : List Entry} {cand : Entry}
    (hu : ∀ ep ∈ chain, ep.size ≠ cand.size) :
    ∃ pre rest, chain = pre ++ rest ∧
      find_entry env chain cand = .ok (pre ++ cand :: rest, none, []) := by
  cases hg : headInsertGuard chain cand with
  | true => exact ⟨[], chain, rfl, by simp [find_entry, hg]⟩
  | false =>
    obtain ⟨hd, tl, hchain, hle⟩ := headInsertGuard_false hg
    obtain ⟨pre, rest, hsplit, hrun, hszs, hhd⟩ :=
      scanLoop_no_collision chain cand [] hu
    refine ⟨pre, rest, hsplit, ?_⟩
    rw [find_entry, hg]
    simp only [Bool.false_eq_true, if_false]
    rw [hrun]
    have hpre : pre ≠ [] := by
      intro hp
      rw [hp] at hsplit
      simp only [List.nil_append] at hsplit
      rw [← hsplit] at hhd
      rw [hchain] at hhd
      exact absurd (hhd hd (by simp)) (Nat.not_lt.mpr hle)
    cases hq : pre.reverse with
    | nil => exact absurd (List.reverse_eq_nil_iff.mp hq) hpre
    | cons a as =>
      simp only [List.append_nil, hq]
      have : (a :: as).reverse = pre := by rw [← hq, List.reverse_reverse]
      rw [this]

lemma chain'_le_insert {A B : List Nat} {s : Nat}
    (h : List.Chain' (· ≤ ·) (A ++ B)) (hA : ∀ a ∈ A, a ≤ s)
    (hB : ∀ b ∈ B.head?, s < b) :
    List.Chain' (· ≤ ·) (A ++ s :: B) := by
  rw [List.chain'_append] at h
  rw [List.chain'_append]
  refine ⟨h.1, ?_, ?_⟩
  · rw [List.chain'_cons']
    exact ⟨fun y hy => le_of_lt (hB y hy), h.2.1⟩
  · intro x hx y hy
    simp only [List.head?_cons, Option.mem_def, Option.some.injEq] at hy
    subst hy
    exact hA x (List.mem_of_mem_getLast? hx)

lemma find_entry_sorted {env : Env} {chain : List Entry} {cand : Entry}
    {chain' : List Entry} {dup : Option Entry} {evs : List String}
    (hs : List.Chain' (· ≤ ·) (chain.map Entry.size))
    (h : find_entry env chain cand = .ok (chain', dup, evs)) :
    List.Chain' (· ≤ ·) (chain'.map Entry.size) := by
  cases hg : headInsertGuard chain cand with
  | true =>
    rw [find_entry_head_insert hg] at h
    simp only [Except.ok.injEq, Prod.mk.injEq] at h
    obtain ⟨rfl, -, -⟩ := h
    rcases headInsertGuard_true hg with rfl | ⟨hd, tl, rfl, hlt⟩
    · simp
    · rw [List.map_cons, List.chain'_cons']
      refine ⟨?_, hs⟩
      intro y hy
      simp only [List.map_cons, List.head?_cons, Option.mem_def, Option.some.injEq] at hy
      subst hy
      exact le_of_lt hlt
  | false =>
    cases dup with
    | some orig =>
      obtain ⟨-, hf, -, -, -⟩ := find_entry_dup h
      rwa [visitRel_sizes hf]
    | none =>
      obtain ⟨pre, w, rest, cand', hc, hc', hwne, hf, hsz, hhd, hcr, hsub⟩ :=
        find_entry_insert hg h
      rw [hc'] at *
      rw [List.map_append, List.map_cons]
      rw [visitRel_sizes hf]
      have hcand : cand'.size = cand.size := hcr.1.2.1
      rw [hcand]
      refine chain'_le_insert ?_ ?_ ?_
      · rw [← List.map_append, ← hc]
        exact hs
      · intro a ha
        obtain ⟨e, he, rfl⟩ := List.mem_map.mp ha
        exact hsz e he
      · intro b hb
        rw [List.head?_map] at hb
        cases hr : rest.head? with
        | none => rw [hr] at hb; cases hb
        | some r =>
          rw [hr] at hb
          simp only [Option.map_some', Option.mem_def, Option.some.injEq] at hb
          subst hb
          exact hhd r (by rw [hr]; rfl)

lemma forall₂_mem_right {α β : Type} {r : α → β → Prop} {l₁ : List α} {l₂ : List β}
    (h : List.Forall₂ r l₁ l₂) {b : β} (hb : b ∈ l₂) : ∃ a ∈ l₁, r a b := by
  induction h with
  | nil => cases hb
  | cons hr _ ih =>
    rcases List.mem_cons.mp hb with rfl | hb'
    · exact ⟨_, List.mem_cons_self _ _, hr⟩
    · obtain ⟨a, ha, hra⟩ := ih hb'
      exact ⟨a, List.mem_cons_of_mem _ ha, hra⟩

lemma hashCands_sublist {cp : String} {ch : Option String} {cs : Nat}
    {l₁ l₂ : List Entry} (h : l₁.Sublist l₂) :
    (hashCands cp ch cs l₁).Sublist (hashCands cp ch cs l₂) :=
  List.Sublist.append (List.Sublist.refl _) ((h.filter _).map _)

/-- Unfolding of a successful `regular_file` call. -/
lemma regular_file_ok {env : Env} {st : ScanState} {e : Entry} {st' : ScanState}
    (h : regular_file env st e = .ok st') :
    ∃ chain' dup evs,
      find_entry env (st.table (e.size % HASH_SIZE)) e = .ok (chain', dup, evs) ∧
      st'.table = updateTable st.table (e.size % HASH_SIZE) chain' ∧
      st'.hashed = st.hashed ++ evs ∧
      st'.mallocs = st.mallocs ∧
      ((∃ orig, dup = some orig ∧
          st'.output = st.output ++ [dupLine e.path orig.path] ∧
          st'.freeSlots = st.freeSlots + 1) ∨
        (dup = none ∧ st'.output = st.output ∧ st'.freeSlots = st.freeSlots)) := by
  rw [regular_file] at h
  split at h
  · cases h
  · rename_i res chain' dup evs hf
    cases dup with
    | some orig =>
      simp only [Except.ok.injEq] at h
      refine ⟨chain', some orig, evs, hf, ?_⟩
      rw [← h]
      exact ⟨rfl, rfl, rfl, Or.inl ⟨orig, rfl, rfl, rfl⟩⟩
    | none =>
      simp only [Except.ok.injEq] at h
      refine ⟨chain', none, evs, hf, ?_⟩
      rw [← h]
      exact ⟨rfl, rfl, rfl, Or.inr ⟨rfl, rfl, rfl⟩⟩

lemma updateTable_eq {t : Nat → List Entry} {i : Nat} {c : List Entry} :
    updateTable t i c i = c := by simp [updateTable]

lemma updateTable_ne {t : Nat → List Entry} {i j : Nat} {c : List Entry}
    (h : j ≠ i) : updateTable t i c j = t j := by simp [updateTable, h]

lemma regular_file_sorted {env : Env} {st : ScanState} {e : Entry} {st' : ScanState}
    (h : regular_file env st e = .ok st')
    (hs : ∀ i, List.Chain' (· ≤ ·) ((st.table i).map Entry.size)) :
    ∀ i, List.Chain' (· ≤ ·) ((st'.table i).map Entry.size) := by
  obtain ⟨chain', dup, evs, hf, ht, -, -, -⟩ := regular_file_ok h
  intro i
  rw [ht]
  by_cases hi : i = e.size % HASH_SIZE
  · subst hi
    rw [updateTable_eq]
    exact find_entry_sorted (hs _) hf
  · rw [updateTable_ne hi]
    exact hs i

lemma scanEntries_sorted {env : Env} :
    ∀ (es : List Entry) (st st' : ScanState),
      (∀ i, List.Chain' (· ≤ ·) ((st.table i).map Entry.size)) →
      scanEntries env es st = .ok st' →
      ∀ i, List.Chain' (· ≤ ·) ((st'.table i).map Entry.size) := by
  intro es
  induction es with
  | nil =>
    intro st st' hs h
    simp only [scanEntries, Except.ok.injEq] at h
    subst h
    exact hs
  | cons e es ih =>
    intro st st' hs h
    simp only [scanEntries] at h
    split at h
    · cases h
    · rename_i st₁ h₁
      exact ih _ _ (regular_file_sorted h₁ hs) h

/-- Membership in the table, by path. -/
def InTable (st : ScanState) (p : String) : Prop :=
  ∃ i, ∃ e ∈ st.table i, e.path = p

/-- Invariant connecting a state to a later state across a scan segment whose
positive-size regular files have paths in `P`: every table entry is an old
entry (same path and size, in the same bucket) or a new one of positive size
with path in `P`; every output line is old or a duplicate report whose
candidate path is in `P` and whose original path is in `P` or was already in
the table. -/
def Keep (st st' : ScanState) (P : List String) : Prop :=
  (∀ i, ∀ e ∈ st'.table i,
     (∃ e₀ ∈ st.table i, e₀.path = e.path ∧ e₀.size = e.size) ∨
       (0 < e.size ∧ e.path ∈ P)) ∧
  (∀ l ∈ st'.output, l ∈ st.output ∨
     ∃ pc po, l = dupLine pc po ∧ pc ∈ P ∧ (po ∈ P ∨ InTable st po))

lemma Keep_of_eq {st st' : ScanState} (ht : st'.table = st.table)
    (ho : st'.output = st.output) (P : List String) : Keep st st' P := by
  constructor
  · intro i e he
    rw [ht] at he
    exact Or.inl ⟨e, he, rfl, rfl⟩
  · intro l hl
    rw [ho] at hl
    exact Or.inl hl

lemma Keep_mono {st st' : ScanState} {P Q : List String} (h : Keep st st' P)
    (hpq : ∀ x ∈ P, x ∈ Q) : Keep st st' Q := by
  obtain ⟨h₁, h₂⟩ := h
  constructor
  · intro i e he
    rcases h₁ i e he with hold | ⟨hs, hp⟩
    · exact Or.inl hold
    · exact Or.inr ⟨hs, hpq _ hp⟩
  · intro l hl
    rcases h₂ l hl with hold | ⟨pc, po, hline, hpc, hpo⟩
    · exact Or.inl hold
    · refine Or.inr ⟨pc, po, hline, hpq _ hpc, ?_⟩
      rcases hpo with hp | ht
      · exact Or.inl (hpq _ hp)
      · exact Or.inr ht

lemma Keep_trans {st st₁ st₂ : ScanState} {P₁ P₂ : List String}
    (h₁ : Keep st st₁ P₁) (h₂ : Keep st₁ st₂ P₂) : Keep st st₂ (P₁ ++ P₂) := by
  obtain ⟨ht₁, ho₁⟩ := h₁
  obtain ⟨ht₂, ho₂⟩ := h₂
  constructor
  · intro i e he
    rcases ht₂ i e he with ⟨e₀, he₀, hp, hs⟩ | ⟨hs, hp⟩
    · rcases ht₁ i e₀ he₀ with ⟨e₁, he₁, hp', hs'⟩ | ⟨hs', hp'⟩
      · exact Or.inl ⟨e₁, he₁, hp'.trans hp, hs'.trans hs⟩
      · exact Or.inr ⟨hs ▸ hs', List.mem_append_left _ (hp ▸ hp')⟩
    · exact Or.inr ⟨hs, List.mem_append_right _ hp⟩
  · intro l hl
    rcases ho₂ l hl with hold | ⟨pc, po, hline, hpc, hpo⟩
    · rcases ho₁ l hold with hold' | ⟨pc, po, hline, hpc, hpo⟩
      · exact Or.inl hold'
      · refine Or.inr ⟨pc, po, hline, List.mem_append_left _ hpc, ?_⟩
        rcases hpo with hp | ht
        · exact Or.inl (List.mem_append_left _ hp)
        · exact Or.inr ht
    · refine Or.inr ⟨pc, po, hline, List.mem_append_right _ hpc, ?_⟩
      rcases hpo with hp | ht
      · exact Or.inl (List.mem_append_right _ hp)
      · obtain ⟨i, e, he, hep⟩ := ht
        rcases ht₁ i e he with ⟨e₀, he₀, hp', hs'⟩ | ⟨hs', hp'⟩
        · exact Or.inr ⟨i, e₀, he₀, hp'.trans hep⟩
        · exact Or.inl (List.mem_append_left _ (hep ▸ hp'))

lemma regular_file_keep {env : Env} {st : ScanState} {e : Entry} {st' : ScanState}
    (h : regular_file env st e = .ok st') (hpos : 0 < e.size) :
    Keep st st' [e.path] := by
  obtain ⟨chain', dup, evs, hf, ht, -, -, hcase⟩ := regular_file_ok h
  constructor
  · intro i en hen
    rw [ht] at hen
    by_cases hi : i = e.size % HASH_SIZE
    · subst hi
      rw [updateTable_eq] at hen
      cases dup with
      | some orig =>
        obtain ⟨-, hforall, -, -, -⟩ := find_entry_dup hf
        obtain ⟨a, ha, hra⟩ := forall₂_mem_right hforall hen
        exact Or.inl ⟨a, ha, hra.1.1.symm, hra.1.2.1.symm⟩
      | none =>
        cases hg : headInsertGuard (st.table (e.size % HASH_SIZE)) e with
        | true =>
          rw [find_entry_head_insert hg] at hf
          simp only [Except.ok.injEq, Prod.mk.injEq] at hf
          obtain ⟨hchain, -⟩ := hf
          rw [← hchain] at hen
          rcases List.mem_cons.mp hen with rfl | hen'
          · exact Or.inr ⟨hpos, by simp⟩
          · exact Or.inl ⟨en, hen', rfl, rfl⟩
        | false =>
          obtain ⟨pre, w, rest, cand', hc, hc', -, hforall, -, -, hcr, -⟩ :=
            find_entry_insert hg hf
          rw [hc'] at hen
          rcases List.mem_append.mp hen with hw | hrest
          · obtain ⟨a, ha, hra⟩ := forall₂_mem_right hforall hw
            refine Or.inl ⟨a, ?_, hra.1.1.symm, hra.1.2.1.symm⟩
            rw [hc]
            exact List.mem_append_left _ ha
          · rcases List.mem_cons.mp hrest with rfl | hr'
            · refine Or.inr ⟨?_, by simp [hcr.1.1]⟩
              rw [hcr.1.2.1]
              exact hpos
            · refine Or.inl ⟨en, ?_, rfl, rfl⟩
              rw [hc]
              exact List.mem_append_right _ hr'
    · rw [updateTable_ne hi] at hen
      exact Or.inl ⟨en, hen, rfl, rfl⟩
  · intro l hl
    rcases hcase with ⟨orig, hdup, hout, -⟩ | ⟨hdup, hout, -⟩
    · rw [hout] at hl
      rcases List.mem_append.mp hl with hold | hnew
      · exact Or.inl hold
      · simp only [List.mem_singleton] at hnew
        subst hnew
        subst hdup
        obtain ⟨-, hforall, hmem, -, -⟩ := find_entry_dup hf
        obtain ⟨a, ha, hra⟩ := forall₂_mem_right hforall hmem
        exact Or.inr ⟨e.path, orig.path, rfl, by simp,
          Or.inr ⟨e.size % HASH_SIZE, a, ha, hra.1.1.symm⟩⟩
    · rw [hout] at hl
      exact Or.inl hl

lemma entry_alloc_acct_ok {env : Env} {st st' : ScanState}
    (h : entry_alloc_acct env st = .ok st') :
    st'.table = st.table ∧ st'.output = st.output ∧ st'.hashed = st.hashed := by
  rw [entry_alloc_acct] at h
  split at h
  · cases h; exact ⟨rfl, rfl, rfl⟩
  · split at h
    · cases h; exact ⟨rfl, rfl, rfl⟩
    · cases h

mutual
theorem process_keep (env : Env) (pfx : String) (t : FsTree) (st st' : ScanState)
    (h : process env pfx t st = .ok st') : Keep st st' (FsTree.regPaths pfx t) := by
  rw [process.eq_def] at h
  split at h
  · cases t with
    | file nm sz nl dv ino =>
      simp only at h
      by_cases hsz : 0 < sz
      · rw [if_pos hsz] at h
        split at h
        · cases h
        · rename_i st₂ ha
          obtain ⟨ht₂, ho₂, -⟩ := entry_alloc_acct_ok ha
          have hk₂ : Keep st st₂ [] := Keep_of_eq ht₂ ho₂ []
          have hk₃ : Keep st₂ st' [pfx ++ "/" ++ nm] := regular_file_keep h hsz
          have := Keep_trans hk₂ hk₃
          simp only [List.nil_append] at this
          simpa [FsTree.regPaths, hsz] using this
      · rw [if_neg hsz] at h
        cases h
        exact Keep_of_eq rfl rfl _
    | dir nm entries =>
      simp only at h
      have := scan_dups_keep env (pfx ++ "/" ++ nm) entries _ _ h
      have hk₀ : Keep st { st with mallocs := st.mallocs + 1 } [] := Keep_of_eq rfl rfl []
      have := Keep_trans hk₀ this
      simpa [FsTree.regPaths] using this
    | symlink nm => cases h; exact Keep_of_eq rfl rfl _
    | special nm => cases h
    | badstat nm => cases h
    | baddir nm => cases h
  · cases h

theorem scan_dups_keep (env : Env) (pfx : String) (ts : FsForest) (st st' : ScanState)
    (h : scan_dups env pfx ts st = .ok st') : Keep st st' (FsForest.regPaths pfx ts) := by
  rw [scan_dups.eq_def] at h
  cases ts with
  | nil =>
    simp only [Except.ok.injEq] at h
    subst h
    exact Keep_of_eq rfl rfl _
  | cons t rest =>
    simp only at h
    split at h
    · cases h
    · rename_i st₁ h₁
      have k₁ := process_keep env pfx t st st₁ h₁
      have k₂ := scan_dups_keep env pfx rest st₁ st' h
      exact Keep_trans k₁ k₂
end

lemma find_entry_preserves_hash {env : Env} {chain : List Entry} {cand : Entry}
    {chain' : List Entry} {dup : Option Entry} {evs : List String}
    (h : find_entry env chain cand = .ok (chain', dup, evs)) :
    ∀ a ∈ chain, a.hash.isSome → ∃ b ∈ chain', b.path = a.path ∧ b.hash = a.hash := by
  intro a ha hsome
  have hvis : ∀ b, visitRel env cand a b → b.path = a.path ∧ b.hash = a.hash := by
    intro b hb
    refine ⟨hb.1.1, ?_⟩
    rcases hb.2 with heq | ⟨-, hnone, -, -⟩
    · exact heq
    · rw [hnone] at hsome; cases hsome
  cases dup with
  | some orig =>
    obtain ⟨-, hforall, -, -, -⟩ := find_entry_dup h
    obtain ⟨b, hb, hrb⟩ := forall₂_mem_left hforall ha
    exact ⟨b, hb, hvis b hrb⟩
  | none =>
    cases hg : headInsertGuard chain cand with
    | true =>
      rw [find_entry_head_insert hg] at h
      simp only [Except.ok.injEq, Prod.mk.injEq] at h
      obtain ⟨hchain, -⟩ := h
      exact ⟨a, hchain ▸ List.mem_cons_of_mem _ ha, rfl, rfl⟩
    | false =>
      obtain ⟨pre, w, rest, cand', hc, hc', -, hforall, -, -, -, -⟩ :=
        find_entry_insert hg h
      rw [hc] at ha
      rcases List.mem_append.mp ha with hp | hr
      · obtain ⟨b, hb, hrb⟩ := forall₂_mem_left hforall hp
        exact ⟨b, hc' ▸ List.mem_append_left _ hb, hvis b hrb⟩
      · exact ⟨a, hc' ▸ List.mem_append_right _ (List.mem_cons_of_mem _ hr), rfl, rfl⟩

lemma find_entry_evs {env : Env} {chain : List Entry} {cand : Entry}
    {chain' : List Entry} {dup : Option Entry} {evs : List String}
    (h : find_entry env chain cand = .ok (chain', dup, evs)) :
    evs.Sublist (hashCands cand.path cand.hash cand.size chain) := by
  cases dup with
  | some orig => exact (find_entry_dup h).2.2.2.2
  | none =>
    cases hg : headInsertGuard chain cand with
    | true =>
      rw [find_entry_head_insert hg] at h
      simp only [Except.ok.injEq, Prod.mk.injEq] at h
      obtain ⟨-, -, hevs⟩ := h
      rw [← hevs]
      exact List.nil_sublist _
    | false =>
      obtain ⟨pre, w, rest, cand', hc, -, -, -, -, -, -, hsub⟩ :=
        find_entry_insert hg h
      refine hsub.trans (hashCands_sublist ?_)
      rw [hc]
      exact List.sublist_append_left _ _

/-- Helper: the full two-file run with equal sizes and equal digests. -/
lemma run_two_dup (dg : String → String) (a b : Entry)
    (hsz : a.size = b.size) (hha : a.hash = none) (hhb : b.hash = none)
    (hdg : dg a.path = dg b.path) :
    scanEntries (totalEnv dg) [a, b] initState = .ok {
      table := updateTable (updateTable initState.table (b.size % HASH_SIZE) [a])
        (b.size % HASH_SIZE) [{ a with hash := some (dg a.path) }],
      output := [dupLine b.path a.path],
      hashed := [b.path, a.path],
      mallocs := 0, freeSlots := 1 } := by
  simp [scanEntries, regular_file, find_entry, scanLoop, hashIfNeeded, generate_hash,
    headInsertGuard, totalEnv, initState, hsz, hha, hhb, hdg, updateTable]

/-- C1: two files of equal size and equal digest, submitted in traversal
order to an empty index, produce exactly one duplicate report, formatted
`>>> DUP file: <candidate>. Original: <original>.`, naming the later file as
the duplicate and the earlier as the original; the candidate is not inserted
(the bucket retains only the original, every other bucket stays empty). -/
theorem claim_C1 (dg : String → String) (a b : Entry)
    (hsz : a.size = b.size) (hha : a.hash = none) (hhb : b.hash = none)
    (hdg : dg a.path = dg b.path) :
    ∃ st', scanEntries (totalEnv dg) [a, b] initState = .ok st' ∧
      st'.output = [dupLine b.path a.path] ∧
      st'.table (b.size % HASH_SIZE) = [{ a with hash := some (dg a.path) }] ∧
      (∀ j, j ≠ b.size % HASH_SIZE → st'.table j = []) := by
  refine ⟨_, run_two_dup dg a b hsz hha hhb hdg, rfl, ?_, ?_⟩
  · simp [updateTable]
  · intro j hj
    simp [updateTable, hj, initState]

def wdg : String → String := fun _ => "h"

def wA : Entry := { path := "a", size := 5, hash := none, nlinks := 1, device := 1, inode := 1 }

def wB : Entry := { path := "b", size := 5, hash := none, nlinks := 1, device := 1, inode := 2 }

theorem claim_C1_witness :
    (wA.size = wB.size ∧ wA.hash = none ∧ wB.hash = none ∧ wdg wA.path = wdg wB.path) ∧
    (∃ st', scanEntries (totalEnv wdg) [wA, wB] initState = .ok st' ∧
      st'.output = [dupLine wB.path wA.path] ∧
      st'.table (wB.size % HASH_SIZE) = [{ wA with hash := some (wdg wA.path) }] ∧
      (∀ j, j ≠ wB.size % HASH_SIZE → st'.table j = [])) :=
  ⟨⟨rfl, rfl, rfl, rfl⟩, claim_C1 wdg wA wB rfl rfl rfl rfl⟩

/-- Helper: the full two-file run with equal sizes and distinct digests. -/
lemma run_two_nodup (dg : String → String) (a b : Entry)
    (hsz : a.size = b.size) (hha : a.hash = none) (hhb : b.hash = none)
    (hdg : dg a.path ≠ dg b.path) :
    scanEntries (totalEnv dg) [a, b] initState = .ok {
      table := updateTable (updateTable initState.table (b.size % HASH_SIZE) [a])
        (b.size % HASH_SIZE)
        [{ a with hash := some (dg a.path) }, { b with hash := some (dg b.path) }],
      output := [],
      hashed := [b.path, a.path],
      mallocs := 0, freeSlots := 0 } := by
  simp [scanEntries, regular_file, find_entry, scanLoop, hashIfNeeded, generate_hash,
    headInsertGuard, totalEnv, initState, hsz, hha, hhb, hdg, updateTable, ScanRes.addEvs]

/-- C5: two files of equal size but different digest are both retained, in
the same bucket chain, and no duplicate report is produced for the pair. -/
theorem claim_C5 (dg : String → String) (a b : Entry)
    (hsz : a.size = b.size) (hha : a.hash = none) (hhb : b.hash = none)
    (hdg : dg a.path ≠ dg b.path) :
    ∃ st', scanEntries (totalEnv dg) [a, b] initState = .ok st' ∧
      st'.output = [] ∧
      st'.table (b.size % HASH_SIZE) =
        [{ a with hash := some (dg a.path) }, { b with hash := some (dg b.path) }] := by
  refine ⟨_, run_two_nodup dg a b hsz hha hhb hdg, rfl, ?_⟩
  simp [updateTable]

def wdg2 : String → String := fun p => p

theorem claim_C5_witness :
    (wA.size = wB.size ∧ wA.hash = none ∧ wB.hash = none ∧ wdg2 wA.path ≠ wdg2 wB.path) ∧
    (∃ st', scanEntries (totalEnv wdg2) [wA, wB] initState = .ok st' ∧
      st'.output = [] ∧
      st'.table (wB.size % HASH_SIZE) =
        [{ wA with hash := some (wdg2 wA.path) }, { wB with hash := some (wdg2 wB.path) }]) :=
  ⟨⟨rfl, rfl, rfl, by decide⟩, claim_C5 wdg2 wA wB rfl rfl rfl (by decide)⟩

/-- C2: the candidate is looked up in bucket `size mod HASH_SIZE` (all other
buckets are untouched by the lookup); an empty bucket or one whose head is
strictly larger receives the candidate at the head of the chain with no
duplicate returned; otherwise, when the scan finds no digest match, the
candidate (hash possibly filled, by `candRel`) is inserted immediately after
the last visited node, all visited nodes having size at most the
candidate's, with no duplicate returned. -/
theorem claim_C2 :
    (∀ (env : Env) (st : ScanState) (e : Entry) (st' : ScanState),
        regular_file env st e = .ok st' →
        (∃ chain' dup evs,
          find_entry env (st.table (e.size % HASH_SIZE)) e = .ok (chain', dup, evs) ∧
          st'.table (e.size % HASH_SIZE) = chain') ∧
        ∀ j, j ≠ e.size % HASH_SIZE → st'.table j = st.table j) ∧
    (∀ (env : Env) (chain : List Entry) (cand : Entry),
        headInsertGuard chain cand = true →
        find_entry env chain cand = .ok (cand :: chain, none, [])) ∧
    (∀ (env : Env) (chain : List Entry) (cand : Entry) (chain' : List Entry)
        (evs : List String),
        headInsertGuard chain cand = false →
        find_entry env chain cand = .ok (chain', none, evs) →
        ∃ pre w rest cand',
          chain = pre ++ rest ∧ chain' = w ++ cand' :: rest ∧ w ≠ [] ∧
          List.Forall₂ (visitRel env cand) pre w ∧
          (∀ a ∈ pre, a.size ≤ cand.size) ∧
          (∀ r ∈ rest.head?, cand.size < r.size) ∧
          candRel env cand cand') := by
  refine ⟨?_, ?_, ?_⟩
  · intro env st e st' h
    obtain ⟨chain', dup, evs, hf, ht, -, -, -⟩ := regular_file_ok h
    refine ⟨⟨chain', dup, evs, hf, by rw [ht, updateTable_eq]⟩, ?_⟩
    intro j hj
    rw [ht, updateTable_ne hj]
  · intro env chain cand hg
    exact find_entry_head_insert hg
  · intro env chain cand chain' evs hg h
    obtain ⟨pre, w, rest, cand', h₁, h₂, h₃, h₄, h₅, h₆, h₇, -⟩ :=
      find_entry_insert hg h
    exact ⟨pre, w, rest, cand', h₁, h₂, h₃, h₄, h₅, h₆, h₇⟩

def wEnv : Env := totalEnv wdg

def wC : Entry := { path := "c", size := 7, hash := none, nlinks := 1, device := 1, inode := 3 }

theorem claim_C2_witness :
    ((regular_file wEnv initState wA = .ok {
        table := updateTable initState.table (wA.size % HASH_SIZE) [wA],
        output := [], hashed := [], mallocs := 0, freeSlots := 0 }) ∧
      (headInsertGuard [] wA = true) ∧
      (headInsertGuard [wA] wC = false) ∧
      (find_entry wEnv [wA] wC = .ok ([wA, wC], none, []))) ∧
    (((∃ chain' dup evs,
          find_entry wEnv (initState.table (wA.size % HASH_SIZE)) wA =
            .ok (chain', dup, evs) ∧
          ({ table := updateTable initState.table (wA.size % HASH_SIZE) [wA],
             output := [], hashed := [], mallocs := 0,
             freeSlots := 0 } : ScanState).table (wA.size % HASH_SIZE) = chain') ∧
        (∀ j, j ≠ wA.size % HASH_SIZE →
          ({ table := updateTable initState.table (wA.size % HASH_SIZE) [wA],
             output := [], hashed := [], mallocs := 0,
             freeSlots := 0 } : ScanState).table j = initState.table j)) ∧
      (find_entry wEnv [] wA = .ok (wA :: [], none, [])) ∧
      (∃ pre w rest cand',
        [wA] = pre ++ rest ∧ ([wA, wC] : List Entry) = w ++ cand' :: rest ∧ w ≠ [] ∧
        List.Forall₂ (visitRel wEnv wC) pre w ∧
        (∀ a ∈ pre, a.size ≤ wC.size) ∧
        (∀ r ∈ rest.head?, wC.size < r.size) ∧
        candRel wEnv wC cand')) :=
  ⟨⟨rfl, rfl, rfl, rfl⟩,
    claim_C2.1 wEnv initState wA _ rfl,
    claim_C2.2.1 wEnv [] wA rfl,
    claim_C2.2.2 wEnv [wA] wC [wA, wC] [] rfl rfl⟩

/-- C3: walking any bucket chain after any sequence of candidate submissions
yields a non-decreasing sequence of sizes, provided every bucket was sorted
beforehand (in particular starting from the empty index). -/
theorem claim_C3 (env : Env) (es : List Entry) (st st' : ScanState)
    (hsorted : ∀ i, List.Chain' (fun x y => x.size ≤ y.size) (st.table i))
    (h : scanEntries env es st = .ok st') :
    ∀ i, List.Chain' (fun x y => x.size ≤ y.size) (st'.table i) := by
  have hs' : ∀ i, List.Chain' (· ≤ ·) ((st.table i).map Entry.size) :=
    fun i => (List.chain'_map _).mpr (hsorted i)
  have hres := scanEntries_sorted es st st' hs' h
  intro i
  exact (List.chain'_map _).mp (hres i)

theorem claim_C3_witness :
    List.Chain' (fun x y => x.size ≤ y.size)
      (({ table := updateTable (updateTable initState.table (wA.size % HASH_SIZE) [wA])
            (wC.size % HASH_SIZE)
            (updateTable initState.table (wA.size % HASH_SIZE) [wA] (wC.size % HASH_SIZE)
              ++ [wC]),
          output := [], hashed := [], mallocs := 0,
          freeSlots := 0 } : ScanState).table (wA.size % HASH_SIZE)) :=
  claim_C3 wEnv [wA, wC] initState _ (fun i => by simp [initState]) rfl
    (wA.size % HASH_SIZE)

/-- C4: digests are lazy, at most once per entry, cached forever. First
conjunct: if no chain entry has the candidate's size (size unique in the
bucket), no digest is computed at all (no events) and the candidate is
inserted unchanged (hash still absent) with the chain entries untouched.
Second conjunct: in every lookup, an already-cached hash is carried over
verbatim to the resulting chain (never recomputed or changed), and the
digest-attempt events are an ordered sub-selection of `hashCands` — the
candidate (only if its hash is absent) followed by the chain nodes whose
hash is absent and whose size equals the candidate's, so each entry is
hashed at most once per call and only while its hash is absent. -/
theorem claim_C4 :
    (∀ (env : Env) (chain : List Entry) (cand : Entry),
        (∀ ep ∈ chain, ep.size ≠ cand.size) →
        ∃ pre rest, chain = pre ++ rest ∧
          find_entry env chain cand = .ok (pre ++ cand :: rest, none, [])) ∧
    (∀ (env : Env) (chain : List Entry) (cand : Entry) (chain' : List Entry)
        (dup : Option Entry) (evs : List String),
        find_entry env chain cand = .ok (chain', dup, evs) →
        (∀ a ∈ chain, a.hash.isSome →
          ∃ b ∈ chain', b.path = a.path ∧ b.hash = a.hash) ∧
        evs.Sublist (hashCands cand.path cand.hash cand.size chain)) := by
  refine ⟨?_, ?_⟩
  · intro env chain cand hu
    exact find_entry_no_collision hu
  · intro env chain cand chain' dup evs h
    exact ⟨find_entry_preserves_hash h, find_entry_evs h⟩

theorem claim_C4_witness :
    ((∀ ep ∈ ([wA] : List Entry), ep.size ≠ wC.size) ∧
      (∃ pre rest, ([wA] : List Entry) = pre ++ rest ∧
        find_entry wEnv [wA] wC = .ok (pre ++ wC :: rest, none, []))) ∧
    ((∀ a ∈ ([wA] : List Entry), a.hash.isSome →
        ∃ b ∈ ([wA, wC] : List Entry), b.path = a.path ∧ b.hash = a.hash) ∧
      (([] : List String)).Sublist (hashCands wC.path wC.hash wC.size [wA])) :=
  ⟨⟨by decide, claim_C4.1 wEnv [wA] wC (by decide)⟩,
    claim_C4.2 wEnv [wA] wC [wA, wC] none [] rfl⟩

/-- C9: the NULL dereference at the tail insertion of `find_entry` is
unreachable: no call returns the `nullDeref` outcome, because whenever the
head-insertion guard fails the scan loop visits at least one node, so
`last_ep` (the head of `visitedRev`) is non-NULL. -/
theorem claim_C9 :
    (∀ (env : Env) (chain : List Entry) (cand : Entry),
        isNullDeref (find_entry env chain cand) = false) ∧
    (∀ (env : Env) (chain : List Entry) (cand : Entry) (vR' : List Entry)
        (cand' : Entry) (rest : List Entry) (evs : List String),
        headInsertGuard chain cand = false →
        scanLoop env cand [] chain = .ok (.notFound vR' cand' rest evs) →
        vR' ≠ []) := by
  refine ⟨fun env chain cand => find_entry_not_null chain cand, ?_⟩
  intro env chain cand vR' cand' rest evs hg hs hnil
  subst hnil
  obtain ⟨hd, tl, rfl, hle⟩ := headInsertGuard_false hg
  obtain ⟨pre, w, hc, hv, hf, hsz, hhd, -, -⟩ := scanLoop_notFound _ _ _ _ _ _ _ hs
  have hwnil : w = [] := by
    cases w with
    | nil => rfl
    | cons x xs => simp at hv
  rw [hwnil] at hf
  have hpre : pre = [] := List.forall₂_nil_right_iff.mp hf
  rw [hpre] at hc
  simp only [List.nil_append] at hc
  rw [← hc] at hhd
  exact absurd (hhd hd (by simp)) (Nat.not_lt.mpr hle)

theorem claim_C9_witness :
    (isNullDeref (find_entry wEnv [wA] wC) = false) ∧
    (([wA] : List Entry) ≠ []) :=
  ⟨claim_C9.1 wEnv [wA] wC,
    claim_C9.2 wEnv [wA] wC [wA] wC [] [] rfl rfl⟩

/-- C10: when `find_entry` reports a duplicate, the bucket chain keeps its
node count, order, paths and sizes (`visitRel` node-wise); the only change
is that absent hashes of equal-size entries may now be filled with their
digests; and `regular_file` leaves every other bucket untouched. -/
theorem claim_C10 :
    (∀ (env : Env) (chain : List Entry) (cand : Entry) (chain' : List Entry)
        (orig : Entry) (evs : List String),
        find_entry env chain cand = .ok (chain', some orig, evs) →
        List.Forall₂ (visitRel env cand) chain chain') ∧
    (∀ (env : Env) (st : ScanState) (e : Entry) (st' : ScanState),
        regular_file env st e = .ok st' →
        ∀ j, j ≠ e.size % HASH_SIZE → st'.table j = st.table j) := by
  refine ⟨?_, ?_⟩
  · intro env chain cand chain' orig evs h
    exact (find_entry_dup h).2.1
  · intro env st e st' h j hj
    obtain ⟨chain', dup, evs, -, ht, -, -, -⟩ := regular_file_ok h
    rw [ht, updateTable_ne hj]

theorem claim_C10_witness :
    List.Forall₂ (visitRel wEnv wB) [wA]
      [{ wA with hash := some (wdg wA.path) }] :=
  claim_C10.1 wEnv [wA] wB [{ wA with hash := some (wdg wA.path) }]
    { wA with hash := some (wdg wA.path) } [wB.path, wA.path] rfl

/-- C6: a zero-length regular file is skipped entirely by `process` (only
the path-string malloc happened; no Entry is allocated, the index, the
output, and the digest events are untouched); and over a whole scan from
the empty index, every table entry and every path mentioned in a duplicate
report belongs to a regular file of positive size of the tree. -/
theorem claim_C6 :
    (∀ (env : Env) (pfx nm : String) (nl dv ino : Nat) (st : ScanState),
        env.mallocOk st.mallocs = true →
        process env pfx (.file nm 0 nl dv ino) st =
          .ok { st with mallocs := st.mallocs + 1 }) ∧
    (∀ (env : Env) (pfx : String) (f : FsForest) (st' : ScanState),
        scan_dups env pfx f initState = .ok st' →
        (∀ i, ∀ e ∈ st'.table i, 0 < e.size ∧ e.path ∈ FsForest.regPaths pfx f) ∧
        (∀ l ∈ st'.output, ∃ pc po, l = dupLine pc po ∧
          pc ∈ FsForest.regPaths pfx f ∧ po ∈ FsForest.regPaths pfx f)) := by
  refine ⟨?_, ?_⟩
  · intro env pfx nm nl dv ino st hm
    rw [process.eq_def]
    simp [hm]
  · intro env pfx f st' h
    obtain ⟨ht, ho⟩ := scan_dups_keep env pfx f initState st' h
    constructor
    · intro i e he
      rcases ht i e he with ⟨e₀, he₀, -, -⟩ | ⟨hs, hp⟩
      · simp [initState] at he₀
      · exact ⟨hs, hp⟩
    · intro l hl
      rcases ho l hl with hold | ⟨pc, po, hline, hpc, hpo⟩
      · simp [initState] at hold
      · refine ⟨pc, po, hline, hpc, ?_⟩
        rcases hpo with hp | ⟨i, e, he, -⟩
        · exact hp
        · simp [initState] at he

def wForest : FsForest := .cons (.file "z" 0 1 1 1) .nil

theorem claim_C6_witness :
    (process wEnv "/r" (.file "z" 0 1 1 1) initState =
      .ok { initState with mallocs := initState.mallocs + 1 }) ∧
    ((∀ i, ∀ e ∈ (({ initState with mallocs := initState.mallocs + 1 } : ScanState)).table i,
        0 < e.size ∧ e.path ∈ FsForest.regPaths "/r" wForest) ∧
      (∀ l ∈ (({ initState with mallocs := initState.mallocs + 1 } : ScanState)).output,
        ∃ pc po, l = dupLine pc po ∧
          pc ∈ FsForest.regPaths "/r" wForest ∧ po ∈ FsForest.regPaths "/r" wForest)) :=
  ⟨claim_C6.1 wEnv "/r" "z" 1 1 1 initState rfl,
    claim_C6.2 wEnv "/r" wForest _ rfl⟩

/-- The strong reading of the spec's "zero-initialized Entry": besides the
owned path, every field of the freshly allocated Entry is zero/absent. -/
def zeroInitialized (s : Slot) : Prop :=
  s.size = 0 ∧ s.hash = none ∧ s.nlinks = 0 ∧ s.device = 0 ∧ s.inode = 0

/-- Residual memory of a previously used and released slot. -/
def staleHeap : Heap :=
  { store := [{ path := none, size := 10, hash := none,
                nlinks := 3, device := 7, inode := 42 }],
    freelist := [0] }

/-- Memory contents of a freshly malloc'd (uninitialized) slot. -/
def junkSlot : Slot :=
  { path := none, size := 0, hash := none, nlinks := 9, device := 7, inode := 8 }

/-- C7 counterexample: `entry_alloc` does not zero-initialize the Entry. It
only sets `next`, `path`, `size` and `hash`; reusing the released slot of
`staleHeap` yields an Entry whose `nlinks`/`device`/`inode` still hold the
previous file's values (3, 7, 42), so the allocated Entry is not
zero-initialized. -/
theorem claim_C7_counterexample :
    ¬ zeroInitialized (getSlot (entry_alloc "p" junkSlot staleHeap).2
        (entry_alloc "p" junkSlot staleHeap).1) := by
  unfold zeroInitialized
  decide

/-- C7 (amended): `allocate(path)` produces an Entry taking ownership of
`path` with cleared link, `size` zero and `hash` absent — the metadata
fields (`nlinks`, `device`, `inode`) are left holding residual memory — and
it reuses a previously released slot when one is available (popping the
freelist head without growing storage) instead of allocating new storage;
after releasing `k` Entries the next `k` allocations reuse existing slots
before any new storage is requested; and `release` frees the Entry's owned
strings (path, digest) and returns the slot to the pool. -/
theorem claim_C7 :
    (∀ (name : String) (junk : Slot) (hp : Heap),
        (∀ j ∈ hp.freelist, j < hp.store.length) →
        (getSlot (entry_alloc name junk hp).2 (entry_alloc name junk hp).1).path
            = some name ∧
        (getSlot (entry_alloc name junk hp).2 (entry_alloc name junk hp).1).size = 0 ∧
        (getSlot (entry_alloc name junk hp).2 (entry_alloc name junk hp).1).hash
            = none) ∧
    (∀ (name : String) (junk : Slot) (hp : Heap) (i : Nat) (rest : List Nat),
        hp.freelist = i :: rest →
        (entry_alloc name junk hp).1 = i ∧
        (entry_alloc name junk hp).2.store.length = hp.store.length ∧
        (entry_alloc name junk hp).2.freelist = rest) ∧
    (∀ (name : String) (junk : Slot) (hp : Heap),
        hp.freelist = [] →
        (entry_alloc name junk hp).1 = hp.store.length ∧
        (entry_alloc name junk hp).2.store.length = hp.store.length + 1) ∧
    (∀ (i : Nat) (hp : Heap),
        (entry_free i hp).freelist = i :: hp.freelist ∧
        (entry_free i hp).store.length = hp.store.length ∧
        (i < hp.store.length →
          getSlot (entry_free i hp) i =
            { getSlot hp i with path := none, hash := none })) ∧
    (∀ (ids : List Nat) (hp : Heap),
        (freeMany ids hp).freelist.length = hp.freelist.length + ids.length ∧
        (freeMany ids hp).store.length = hp.store.length) ∧
    (∀ (junk : Slot) (names : List String) (hp : Heap),
        names.length ≤ hp.freelist.length →
        (allocMany junk names hp).store.length = hp.store.length) := by
  have hfreeMany : ∀ (ids : List Nat) (hp : Heap),
      (freeMany ids hp).freelist.length = hp.freelist.length + ids.length ∧
      (freeMany ids hp).store.length = hp.store.length := by
    intro ids
    induction ids with
    | nil => intro hp; simp [freeMany]
    | cons i is ih =>
      intro hp
      obtain ⟨h₁, h₂⟩ := ih (entry_free i hp)
      constructor
      · rw [freeMany, h₁]
        simp [entry_free]
        omega
      · rw [freeMany, h₂]
        simp [entry_free]
  have hallocMany : ∀ (junk : Slot) (names : List String) (hp : Heap),
      names.length ≤ hp.freelist.length →
      (allocMany junk names hp).store.length = hp.store.length := by
    intro junk names
    induction names with
    | nil => intro hp _; rfl
    | cons n ns ih =>
      intro hp hlen
      cases hfl : hp.freelist with
      | nil => rw [hfl] at hlen; simp at hlen
      | cons i rest =>
        rw [allocMany]
        have hstep : (entry_alloc n junk hp).2.store.length = hp.store.length ∧
            (entry_alloc n junk hp).2.freelist = rest := by
          simp [entry_alloc, hfl]
        rw [ih _ (by rw [hstep.2]; rw [hfl] at hlen; simpa using hlen)]
        exact hstep.1
  refine ⟨?_, ?_, ?_, ?_, hfreeMany, hallocMany⟩
  · intro name junk hp hwf
    cases hfl : hp.freelist with
    | nil =>
      simp only [entry_alloc, hfl, getSlot]
      rw [List.get?_concat_length]
      simp [allocInit]
    | cons i rest =>
      have hi : i < hp.store.length := hwf i (by rw [hfl]; simp)
      simp only [entry_alloc, hfl, getSlot]
      rw [List.get?_set_eq_of_lt _ hi]
      simp [allocInit]
  · intro name junk hp i rest hfl
    simp [entry_alloc, hfl]
  · intro name junk hp hfl
    simp [entry_alloc, hfl]
  · intro i hp
    refine ⟨rfl, by simp [entry_free], ?_⟩
    intro hi
    simp only [entry_free, getSlot]
    rw [List.get?_set_eq_of_lt _ hi]
    simp

def staleHeap2 : Heap := { store := staleHeap.store, freelist := [] }

theorem claim_C7_witness :
    ((getSlot (entry_alloc "p" junkSlot staleHeap).2
        (entry_alloc "p" junkSlot staleHeap).1).path = some "p" ∧
      (getSlot (entry_alloc "p" junkSlot staleHeap).2
        (entry_alloc "p" junkSlot staleHeap).1).size = 0 ∧
      (getSlot (entry_alloc "p" junkSlot staleHeap).2
        (entry_alloc "p" junkSlot staleHeap).1).hash = none) ∧
    ((entry_alloc "p" junkSlot staleHeap).1 = 0 ∧
      (entry_alloc "p" junkSlot staleHeap).2.store.length = staleHeap.store.length ∧
      (entry_alloc "p" junkSlot staleHeap).2.freelist = []) ∧
    (allocMany junkSlot ["q"] (freeMany [0] staleHeap2)).store.length =
      staleHeap.store.length :=
  ⟨claim_C7.1 "p" junkSlot staleHeap (by decide),
    claim_C7.2.1 "p" junkSlot staleHeap 0 [] rfl,
    by
      have hfree := (claim_C7.2.2.2.2.1 [0] staleHeap2).2
      have hall := claim_C7.2.2.2.2.2 junkSlot ["q"] (freeMany [0] staleHeap2) (by decide)
      rw [hall, hfree]; rfl⟩

/-- C8 counterexample: the claim as stated says every fatal error is
reported to standard error with the offending path, but a failed `lstat` is
reported by `perror("process lstat")` (dupscan.c:185) with no path: two
nodes with different offending paths produce the identical diagnostic, and
that diagnostic does not contain the offending path. -/
theorem claim_C8_counterexample :
    process wEnv "/a" (.badstat "x") initState = .error (.err "process lstat") ∧
    process wEnv "/b" (.badstat "y") initState = .error (.err "process lstat") ∧
    ("/a" ++ "/" ++ "x" : String) ≠ ("/b" ++ "/" ++ "y") ∧
    ¬ (("/a" ++ "/" ++ "x").toList <:+: ("process lstat" : String).toList) :=
  ⟨rfl, rfl, by decide, by decide⟩

/-- C8 (amended): usage errors (unknown flag, wrong positional count)
terminate with exit code 2; an unsupported file type, a failed `lstat`, a
failed `opendir`, a failed `malloc` (path buffer or entry storage) and a
failed digest computation are each fatal and not recovered locally, reported
to standard error, with any runtime error giving exit code 1 and success 0.
The unsupported-file-type and failed-`opendir` reports name the offending
path, and a failed digest read reports the file, but the `lstat`-failure and
`malloc`-failure diagnostics name no path. The digest facility is consulted
at most once per entry in a lookup (an ordered sub-selection of
`hashCands`), with no retry: a failure propagates immediately as the fatal
error. -/
theorem claim_C8 :
    (∀ (env : Env) (root : Option FsForest) (args : List String),
        getopt_nv args (false, false) = none →
        dupscan_main env root args = some (2, [])) ∧
    (∀ (env : Env) (root : Option FsForest) (args : List String)
        (acc : Bool × Bool) (pos : List String),
        getopt_nv args (false, false) = some (acc, pos) → pos.length ≠ 1 →
        dupscan_main env root args = some (2, [])) ∧
    (∀ (env : Env) (pfx nm : String) (st : ScanState),
        env.mallocOk st.mallocs = true →
        process env pfx (.special nm) st =
          .error (.err ("Can't handle file type for " ++ (pfx ++ "/" ++ nm) ++ "."))) ∧
    (∀ (env : Env) (pfx nm : String) (st : ScanState),
        env.mallocOk st.mallocs = true →
        process env pfx (.badstat nm) st = .error (.err "process lstat")) ∧
    (∀ (env : Env) (pfx nm : String) (st : ScanState),
        env.mallocOk st.mallocs = true →
        process env pfx (.baddir nm) st = .error (.err (pfx ++ "/" ++ nm))) ∧
    (∀ (env : Env) (pfx : String) (t : FsTree) (st : ScanState),
        env.mallocOk st.mallocs = false →
        process env pfx t st = .error (.err "process malloc")) ∧
    (∀ (env : Env) (st : ScanState),
        st.freeSlots = 0 → env.mallocOk st.mallocs = false →
        entry_alloc_acct env st = .error (.err "entry_alloc")) ∧
    (∀ (env : Env) (e : Entry),
        env.digest e.path = none →
        generate_hash env e = .error (.err ("hash failure: " ++ e.path))) ∧
    (∀ (env : Env) (f : FsForest) (dir : String) (args : List String)
        (acc : Bool × Bool),
        getopt_nv args (false, false) = some (acc, [dir]) →
        (∀ m, scan_dups env dir f initState = .error (.err m) →
          dupscan_main env (some f) args = some (1, [])) ∧
        (∀ st', scan_dups env dir f initState = .ok st' →
          dupscan_main env (some f) args = some (0, st'.output)) ∧
        dupscan_main env none args = some (1, [])) ∧
    (∀ (env : Env) (chain : List Entry) (cand : Entry) (chain' : List Entry)
        (dup : Option Entry) (evs : List String),
        find_entry env chain cand = .ok (chain', dup, evs) →
        evs.Sublist (hashCands cand.path cand.hash cand.size chain)) := by
  refine ⟨?_, ?_, ?_, ?_, ?_, ?_, ?_, ?_, ?_, ?_⟩
  · intro env root args h
    simp [dupscan_main, h]
  · intro env root args acc pos h hlen
    cases pos with
    | nil => simp [dupscan_main, h]
    | cons d rest =>
      cases rest with
      | nil => simp at hlen
      | cons d₂ rest₂ => simp [dupscan_main, h]
  · intro env pfx nm st hm
    rw [process.eq_def]
    simp [hm]
  · intro env pfx nm st hm
    rw [process.eq_def]
    simp [hm]
  · intro env pfx nm st hm
    rw [process.eq_def]
    simp [hm]
  · intro env pfx t st hm
    rw [process.eq_def]
    simp [hm]
  · intro env st hfs hm
    simp [entry_alloc_acct, hfs, hm]
  · intro env e h
    rw [generate_hash, h]
  · intro env f dir args acc hargs
    refine ⟨?_, ?_, ?_⟩
    · intro m hscan
      simp [dupscan_main, hargs, hscan]
    · intro st' hscan
      simp [dupscan_main, hargs, hscan]
    · simp [dupscan_main, hargs]
  · intro env chain cand chain' dup evs h
    exact find_entry_evs h

def wEnvFail : Env := { digest := fun _ => none, mallocOk := fun _ => false }

def wBadForest : FsForest := .cons (.special "dev0") .nil

theorem claim_C8_witness :
    (dupscan_main wEnv none ["-x"] = some (2, [])) ∧
    (dupscan_main wEnv none ["d1", "d2"] = some (2, [])) ∧
    (process wEnv "/r" (.special "dev0") initState =
      .error (.err ("Can't handle file type for " ++ ("/r" ++ "/" ++ "dev0") ++ "."))) ∧
    (process wEnv "/r" (.badstat "s0") initState = .error (.err "process lstat")) ∧
    (process wEnv "/r" (.baddir "d0") initState = .error (.err ("/r" ++ "/" ++ "d0"))) ∧
    (process wEnvFail "/r" (.symlink "l0") initState = .error (.err "process malloc")) ∧
    (entry_alloc_acct wEnvFail initState = .error (.err "entry_alloc")) ∧
    (generate_hash wEnvFail wA = .error (.err ("hash failure: " ++ wA.path))) ∧
    (dupscan_main wEnv (some wBadForest) ["/r"] = some (1, [])) ∧
    (dupscan_main wEnv (some FsForest.nil) ["/r"] = some (0, initState.output)) ∧
    (dupscan_main wEnv none ["/r"] = some (1, [])) :=
  ⟨claim_C8.1 wEnv none ["-x"] rfl,
    claim_C8.2.1 wEnv none ["d1", "d2"] (false, false) ["d1", "d2"] rfl (by decide),
    claim_C8.2.2.1 wEnv "/r" "dev0" initState rfl,
    claim_C8.2.2.2.1 wEnv "/r" "s0" initState rfl,
    claim_C8.2.2.2.2.1 wEnv "/r" "d0" initState rfl,
    claim_C8.2.2.2.2.2.1 wEnvFail "/r" (.symlink "l0") initState rfl,
    claim_C8.2.2.2.2.2.2.1 wEnvFail initState rfl rfl,
    claim_C8.2.2.2.2.2.2.2.1 wEnvFail wA rfl,
    (claim_C8.2.2.2.2.2.2.2.2.1 wEnv wBadForest "/r" ["/r"] (false, false) rfl).1
      ("Can't handle file type for " ++ ("/r" ++ "/" ++ "dev0") ++ ".") rfl,
    (claim_C8.2.2.2.2.2.2.2.2.1 wEnv FsForest.nil "/r" ["/r"] (false, false) rfl).2.1
      initState rfl,
    (claim_C8.2.2.2.2.2.2.2.2.1 wEnv FsForest.nil "/r" ["/r"] (false, false) rfl).2.2⟩
